import Mathlib

set_option maxHeartbeats 1000000
set_option maxRecDepth 4000

/-!
Verification of the retrieval-augmented context pipeline and caching layer
of the mark-ai repository: the chunker (src/backend/vectorstore/chunker.py),
the market-analysis result cache (src/backend/market_analysis/cache.py),
the indexer (src/backend/vectorstore/indexer.py) and the context retriever
(src/backend/vectorstore/retrieval.py).

Python strings are modelled as `List Char` where index arithmetic matters
(the chunker) and as Lean `String` elsewhere; Python integers as `Int` or
`Nat`; timestamps as natural numbers (seconds); JSON-serialisable payloads
as an inductive `Json` type, with `json.dumps` followed by `json.loads`
modelled as the identity on such values.
-/

namespace MarkAI

/-! ## Python string primitives used by chunk_text -/

/-- CPython slice-index normalisation: a negative index counts from the end
of the string, then the result is clamped to the range `[0, len]`. -/
def pyNorm (len : Nat) (i : Int) : Nat :=
  let j : Int := if i < 0 then i + len else i
  if j < 0 then 0 else if (len : Int) < j then len else j.toNat

/-- Python slicing `text[i:j]` on a list of characters. -/
def pySlice (l : List Char) (i j : Int) : List Char :=
  (l.take (pyNorm l.length j)).drop (pyNorm l.length i)

/-- Python `text.rfind(c, i, j)` for a one-character needle: the largest
position `p` with `pyNorm len i ≤ p < pyNorm len j` holding the character
`c`, and `-1` when there is none.  `str.rfind` normalises negative bounds
exactly like slicing does. -/
def pyRfind (l : List Char) (c : Char) (i j : Int) : Int :=
  match ((List.range (pyNorm l.length j)).filter
      (fun p => decide (pyNorm l.length i ≤ p) && decide (l.get? p = some c))).getLast? with
  | some p => (p : Int)
  | none => -1

/-- The characters removed by Python `str.strip()` with no argument. -/
def isPySpace (c : Char) : Bool :=
  c = ' ' || c = '\t' || c = '\n' || c = '\r' || c = '\x0b' || c = '\x0c'

/-- Python `str.strip()`: drop leading and trailing whitespace. -/
def pyStrip (l : List Char) : List Char :=
  ((l.dropWhile isPySpace).reverse.dropWhile isPySpace).reverse

/-! ## chunk_text (chunker.py lines 5-41) -/

/-- The cut position `end` computed by one iteration of the `while` loop of
`chunk_text` (chunker.py lines 24-36): `start + chunk_size`, moved back to
just after the last newline in the window if one lies past the window's
midpoint, else just after the last space past the midpoint, else left at
the hard boundary.  The boundary search only happens when the tentative
cut is strictly inside the text. -/
def chunkEnd (text : List Char) (chunk_size : Nat) (start : Int) : Int :=
  let end0 : Int := start + (chunk_size : Int)
  if end0 < (text.length : Int) then
    let newline_pos := pyRfind text '\n' start end0
    if start + ((chunk_size / 2 : Nat) : Int) < newline_pos then newline_pos + 1
    else
      let space_pos := pyRfind text ' ' start end0
      if start + ((chunk_size / 2 : Nat) : Int) < space_pos then space_pos + 1
      else end0
  else end0

/-- The next value of `start` after one iteration of the `while` loop of
`chunk_text` (chunker.py line 39): `end - overlap` when the cut is strictly
inside the text, else `end`. -/
def chunkNext (text : List Char) (chunk_size overlap : Nat) (start : Int) : Int :=
  let e := chunkEnd text chunk_size start
  if e < (text.length : Int) then e - (overlap : Int) else e

/-- The `while start < len(text)` loop of `chunk_text`, with explicit fuel:
each iteration appends `text[start:end].strip()` and advances `start` by
`chunkNext`.  The fuel only truncates runs of the loop that do not
terminate (see `chunk_text_nonterminating`); every chunk in the result is
one the Python loop really appends. -/
def chunkTextGo (text : List Char) (chunk_size overlap : Nat) : Nat → Int → List (List Char)
  | 0, _ => []
  | fuel+1, start =>
    if start < (text.length : Int) then
      pyStrip (pySlice text start (chunkEnd text chunk_size start)) ::
        chunkTextGo text chunk_size overlap fuel (chunkNext text chunk_size overlap start)
    else []

/-- Source `chunk_text(text, chunk_size, overlap)` (chunker.py lines 5-41): texts
no longer than `chunk_size` are returned whole as a one-element list,
longer texts go through the overlapping-window loop starting at 0. -/
def chunk_text (text : List Char) (chunk_size overlap : Nat) : List (List Char) :=
  if text.length ≤ chunk_size then [text]
  else chunkTextGo text chunk_size overlap (text.length + 1) 0

/-- The `(start, end)` window of each iteration of the `chunk_text` loop,
in order; same recursion as `chunkTextGo`. -/
def chunkWindowsGo (text : List Char) (chunk_size overlap : Nat) : Nat → Int → List (Int × Int)
  | 0, _ => []
  | fuel+1, start =>
    if start < (text.length : Int) then
      (start, chunkEnd text chunk_size start) ::
        chunkWindowsGo text chunk_size overlap fuel (chunkNext text chunk_size overlap start)
    else []

/-- The windows visited by `chunk_text` on a text longer than `chunk_size`. -/
def chunkWindows (text : List Char) (chunk_size overlap : Nat) : List (Int × Int) :=
  chunkWindowsGo text chunk_size overlap (text.length + 1) 0

/-- The largest number of characters `n` such that the last `n` characters
of `a` coincide with the first `n` characters of `b`: how many characters
the tail of one chunk shares with the head of the next. -/
def sharedOverlap (a b : List Char) : Nat :=
  (((List.range (min a.length b.length + 1)).filter
      (fun n => decide (a.drop (a.length - n) = b.take n))).getLast?).getD 0

/-! ## Chunk records (chunker.py lines 44-151) -/

/-- The metadata dict attached to a chunk.  The chunker writes the `doc`
and `commit` shapes; the retriever additionally handles any other value of
the `type` field (`other`). -/
inductive ChunkMeta where
  | doc (path : String) (chunk_idx : Nat) (total_chunks : Nat)
  | commit (sha message author date : String) (file : Option String)
  | other (doc_type : String)
deriving DecidableEq

/-- A chunk dict as produced by the chunker: `id`, `text`, `metadata`. -/
structure ChunkRec where
  id : String
  text : String
  metadata : ChunkMeta
deriving DecidableEq

/-- A documentation file handed to `chunk_documentation`: `path`, `content`. -/
structure DocFile where
  path : String
  content : String
deriving DecidableEq

/-- Source `chunk_documentation(docs, max_chunks_per_doc)` (chunker.py lines
44-80): skips documents whose content strips to nothing, chunks the rest
with `chunk_text(content, 1500, 200)`, keeps at most `max_chunks_per_doc`
chunks per document, and gives chunk `idx` of document `path` the id
`doc:<path>:<idx>` with `total_chunks` the capped count. -/
def chunk_documentation (docs : List DocFile) (max_chunks_per_doc : Nat) : List ChunkRec :=
  docs.flatMap (fun doc =>
    if pyStrip doc.content.toList = [] then []
    else
      let chunks := chunk_text doc.content.toList 1500 200
      ((chunks.take max_chunks_per_doc).enum).map (fun p =>
        ⟨"doc:" ++ doc.path ++ ":" ++ toString p.1,
         String.mk p.2,
         ChunkMeta.doc doc.path p.1 (min chunks.length max_chunks_per_doc)⟩))

/-- A commit dict handed to `chunk_commits`.  An absent `author`, `date`,
`files` or `diff` key is modelled by the value Python's `.get` default
supplies for it (`"Unknown"`, `""`, `[]`, `""`). -/
structure Commit where
  hash : String
  message : String
  author : String
  date : String
  files : List String
  diff : String
deriving DecidableEq

/-- Python `haystack.find(needle)` / `needle in haystack`: the first index
at which `pat` occurs in `hay`, if any. -/
def findSub (hay pat : List Char) : Option Nat :=
  (List.range (hay.length + 1)).find? (fun i => pat.isPrefixOf (hay.drop i))

/-- Source `chunk_commits(commits, max_files_per_commit, max_diff_chars)`
(chunker.py lines 83-151).  A commit with no file list but a non-empty diff
yields one combined chunk with id `commit:<sha>:0`; otherwise one chunk per
listed file (capped at `max_files_per_commit`) with id `commit:<sha>:<idx>`,
whose diff snippet is the `max_diff_chars`-window of the diff starting at
the first occurrence of the file path, or the head of the diff when the
path does not occur, or empty when the diff is empty. -/
def chunk_commits (commits : List Commit) (max_files_per_commit max_diff_chars : Nat) :
    List ChunkRec :=
  commits.flatMap (fun c =>
    if c.files = [] ∧ c.diff ≠ "" then
      [⟨"commit:" ++ c.hash ++ ":0",
        "Commit: " ++ c.message ++ "\nAuthor: " ++ c.author ++ "\nDate: " ++ c.date ++
          "\n\nDiff:\n" ++ String.mk (c.diff.toList.take max_diff_chars),
        ChunkMeta.commit c.hash c.message c.author c.date none⟩]
    else
      ((c.files.take max_files_per_commit).enum).map (fun p =>
        let diff_snippet :=
          if c.diff = "" then ""
          else match findSub c.diff.toList p.2.toList with
            | some start => String.mk ((c.diff.toList.drop start).take max_diff_chars)
            | none => String.mk (c.diff.toList.take max_diff_chars)
        ⟨"commit:" ++ c.hash ++ ":" ++ toString p.1,
         "Commit: " ++ c.message ++ "\nFile: " ++ p.2 ++ "\nAuthor: " ++ c.author ++
           "\nDate: " ++ c.date ++ "\n\nDiff:\n" ++ diff_snippet,
         ChunkMeta.commit c.hash c.message c.author c.date (some p.2)⟩))

/-! ## Vector index and indexer (store.py, indexer.py) -/

/-- The contents of one Chroma collection, as a map from chunk id to the
stored document and metadata. -/
abbrev Store : Type := String → Option (String × ChunkMeta)

/-- Modelled from the spec: storing one chunk in the collection.  The
ChromaDB collection itself is outside this repository; section 4.2 of the
spec fixes its contract as idempotent upsert by id ("collections are
created on first write, reused on subsequent writes (idempotent upsert by
id)"), so writing a chunk binds its id to its text and metadata and leaves
every other id unchanged. -/
def upsertChunk (store : Store) (c : ChunkRec) : Store :=
  fun k => if k = c.id then some (c.text, c.metadata) else store k

/-- Writing a list of chunks in order (`collection.add(ids, documents,
metadatas)` in indexer.py lines 53-57, under the spec's upsert contract). -/
def upsertAll (store : Store) (l : List ChunkRec) : Store :=
  l.foldl upsertChunk store

/-- The `repo_data` argument of `index_repo`: `get_repo()` output. -/
structure RepoData where
  documentation : List DocFile
  commits : List Commit

/-- Source `index_repo(repo_data, repo_url, persist_dir)` (indexer.py lines 7-61)
acting on the collection named `repo_<hash(repo_url)>`: chunk the
documentation and the commits (with the call sites' parameters 5, 5 and
1000), and write all chunks into the collection; when there are no chunks
at all the collection is left untouched. -/
def index_repo (store : Store) (repo_data : RepoData) : Store :=
  let doc_chunks := chunk_documentation repo_data.documentation 5
  let commit_chunks := chunk_commits repo_data.commits 5 1000
  let all_chunks := doc_chunks ++ commit_chunks
  if all_chunks.isEmpty then store else upsertAll store all_chunks

/-! ## Context retrieval (retrieval.py lines 6-84) -/

/-- The provenance header the retriever formats for one result
(retrieval.py lines 64-75): `[Documentation: <path>]` for doc chunks,
`[Commit <sha8>: <message>]` for commit chunks (first 8 characters of the
sha), `[<type>]` for anything else. -/
def headerFor : ChunkMeta → String
  | ChunkMeta.doc path _ _ => "[Documentation: " ++ path ++ "]"
  | ChunkMeta.commit sha message _ _ _ => "[Commit " ++ sha.take 8 ++ ": " ++ message ++ "]"
  | ChunkMeta.other doc_type => "[" ++ doc_type ++ "]"

/-- The result-assembly loop of `retrieve_context` (retrieval.py lines
52-78): walk the ranked results, break as soon as `total_chars + len(doc)`
would exceed the budget, otherwise append `header\ndoc\n` and charge
`len(doc) + len(header) + 2` to the running total. -/
def assembleGo (max_context_chars : Nat) : List (String × ChunkMeta) → Nat → List String
  | [], _ => []
  | (doc, metadata) :: rest, total_chars =>
    if max_context_chars < total_chars + doc.length then []
    else
      (headerFor metadata ++ "\n" ++ doc ++ "\n") ::
        assembleGo max_context_chars rest
          (total_chars + doc.length + (headerFor metadata).length + 2)

/-- Python `sep.join(parts)`. -/
def pyJoin (sep : String) : List String → String
  | [] => ""
  | [p] => p
  | p :: rest => p ++ sep ++ pyJoin sep rest

/-- The sentinel `retrieve_context` returns when the query yields no
results at all (retrieval.py line 49). -/
def noResultsSentinel : String := "No relevant context found in the repository."

/-- The sentinel `retrieve_context` returns when results exist but none
was included under the size budget (retrieval.py line 81). -/
def sizeLimitSentinel : String := "No relevant context found within size limits."

/-- Source `retrieve_context(query, repo_url, k, ..., max_context_chars)`
(retrieval.py lines 6-84), given the ranked `(document, metadata)` pairs
the Chroma query returned (the query itself, ordering by cosine distance
and the collection lookup happen inside ChromaDB, outside this
repository): one sentinel for an empty result list, the assembly loop
otherwise, and a second sentinel when the loop included no block. -/
def retrieve_context (results : List (String × ChunkMeta)) (max_context_chars : Nat) : String :=
  if results = [] then noResultsSentinel
  else
    let context_parts := assembleGo max_context_chars results 0
    if context_parts = [] then sizeLimitSentinel
    else pyJoin "\n---\n\n" context_parts

/-! ## Market-analysis result cache (cache.py) -/

/-- JSON-serialisable values, the shape of `market_data` payloads.
`json.dumps` followed by `json.loads` is the identity on these, so the
stored document is modelled by the value itself. -/
inductive Json where
  | null
  | bool (b : Bool)
  | num (n : Int)
  | str (s : String)
  | arr (l : List Json)
  | obj (l : List (String × Json))

/-- The digest input built by `get_cache_key` (cache.py line 22): the
f-string `"{project_description}|{tech_stack}|{target_audience}"`.  The
source then returns the MD5 hexdigest of this string; MD5 is a fixed
function of its input, so two parameter tuples receive the same key
whenever their digest inputs coincide, and distinct keys only under the
additional assumption that MD5 does not collide on the two inputs.  The
key is therefore modelled by the digest input itself. -/
def get_cache_key (project_description tech_stack target_audience : String) : String :=
  project_description ++ "|" ++ tech_stack ++ "|" ++ target_audience

/-- One entry of the `market_analysis_cache` collection: the JSON document
(a dict payload) and the metadata written by `cache_market_analysis`
(cache.py lines 77-87), with the description and stack truncated and the
timestamps in seconds. -/
structure CacheEntry where
  document : List (String × Json)
  project_description : String
  tech_stack : String
  target_audience : String
  cached_at : Nat
  expires_at : Nat

/-- The `market_analysis_cache` collection: id/entry pairs in insertion
order (Chroma ids are unique within a collection). -/
abbrev CacheState : Type := List (String × CacheEntry)

/-- Chroma `collection.get(ids=[key])`: the entry stored under `key`, if any. -/
def lookupEntry (state : CacheState) (key : String) : Option CacheEntry :=
  (List.find? (fun p => p.1 = key) state).map Prod.snd

/-- The entry `cache_market_analysis` writes (cache.py lines 75-112):
`cached_at = now`, `expires_at = now + ttl_days` (in seconds), description
truncated to 500 characters and stack to 200 for the metadata, the payload
serialised as the document. -/
def cacheEntryFor (pd ts ta : String) (market_data : List (String × Json))
    (now ttl_days : Nat) : CacheEntry :=
  ⟨market_data, pd.take 500, ts.take 200, ta, now, now + ttl_days * 86400⟩

/-- Source `cache_market_analysis(project_description, tech_stack,
target_audience, market_data, persist_dir, ttl_days)` (cache.py lines
53-112): update the entry under the computed key when one exists, else add
a new one. -/
def cache_market_analysis (pd ts ta : String) (market_data : List (String × Json))
    (now ttl_days : Nat) (state : CacheState) : CacheState :=
  let cache_key := get_cache_key pd ts ta
  let entry := cacheEntryFor pd ts ta market_data now ttl_days
  if state.any (fun p => p.1 = cache_key) then
    state.map (fun p => if p.1 = cache_key then (cache_key, entry) else p)
  else
    state ++ [(cache_key, entry)]

/-- Python dict assignment `d[k] = v`: overwrite the value under `k` when
the key is present, else append the new key at the end. -/
def dictSet (l : List (String × Json)) (k : String) (v : Json) : List (String × Json) :=
  if l.any (fun p => p.1 = k) then l.map (fun p => if p.1 = k then (k, v) else p)
  else l ++ [(k, v)]

/-- The `_cache_info` dict `get_cached_market_analysis` adds to the parsed
payload (cache.py lines 159-163), timestamps modelled as numbers. -/
def cacheInfoJson (cached_at expires_at : Nat) : Json :=
  Json.obj [("cached_at", Json.num cached_at), ("expires_at", Json.num expires_at),
    ("from_cache", Json.bool true)]

/-- Source `get_cached_market_analysis(project_description, tech_stack,
target_audience, persist_dir)` at time `now` (cache.py lines 115-170):
look up the key; absent is a miss; present but `now > expires_at` deletes
the entry and is a miss; otherwise the parsed document is returned with
`_cache_info` added.  The second component is the collection after the
call (the source mutates it in place on lazy expiry). -/
def get_cached_market_analysis (pd ts ta : String) (now : Nat) (state : CacheState) :
    Option (List (String × Json)) × CacheState :=
  let cache_key := get_cache_key pd ts ta
  match lookupEntry state cache_key with
  | none => (none, state)
  | some e =>
    if e.expires_at < now then
      (none, state.filter (fun p => p.1 ≠ cache_key))
    else
      (some (dictSet e.document "_cache_info" (cacheInfoJson e.cached_at e.expires_at)), state)

/-- Source `clear_expired_cache(persist_dir)` at time `now` (cache.py lines
173-208): collect the ids of all entries with `now > expires_at`, delete
them, and return how many there were.  The first component is the returned
count, the second the collection after the call. -/
def clear_expired_cache (now : Nat) (state : CacheState) : Nat × CacheState :=
  let expired_ids := (state.filter (fun p => p.2.expires_at < now)).map Prod.fst
  (expired_ids.length, state.filter (fun p => p.1 ∉ expired_ids))

/-! ## Relations and concrete inputs used by the theorems below -/

/-- The relation between adjacent windows of the `chunk_text` loop: the
second window starts `overlap` characters before the first window's cut,
the first cut lies strictly inside the text, and the raw (pre-strip) text
of the shared region is a suffix of the first window's raw slice and a
prefix of the second window's raw slice. -/
def adjacentOverlapRel (text : List Char) (overlap : Nat) (w₁ w₂ : Int × Int) : Prop :=
  w₂.1 = w₁.2 - (overlap : Int) ∧ w₁.2 < (text.length : Int) ∧
  pySlice text w₂.1 w₁.2 <:+ pySlice text w₁.1 w₁.2 ∧
  pySlice text w₂.1 w₁.2 <+: pySlice text w₂.1 w₂.2

/-- Six letters, a newline, then twelve more letters: on this 19-character
text `chunk_text(..., chunk_size=10, overlap=9)` never terminates. -/
def loopText : List Char := ("aaaaaa\naaaaaaaaaaaa").toList

/-- Five letters followed by twenty spaces: the second window of
`chunk_text(..., 10, 0)` is all whitespace and strips to the empty chunk. -/
def emptyChunkText : List Char := ("aaaaa                    ").toList

/-- Six letters, four spaces, ten letters: with `chunk_size = 10` and
`overlap = 4` the whole shared region between the first two windows is
whitespace, so the stripped chunks share no characters at all. -/
def overlapText : List Char := ("aaaaaa    bbbbbbbbbb").toList

/-- Seventeen one-character documents: each included block charges only
6 characters to the running total, but the join later inserts 6 more
uncounted characters per block boundary. -/
def budgetResults : List (String × ChunkMeta) := List.replicate 17 ("a", ChunkMeta.other "x")

/-- A cache entry that expired at time 3. -/
def cacheEntryEx : CacheEntry := ⟨[], "p", "t", "a", 0, 3⟩

/-- A one-entry cache holding `cacheEntryEx` under the key of
`("p", "t", "a")`. -/
def cacheStateEx : CacheState := [("p|t|a", cacheEntryEx)]

/-! ## Helper lemmas about the Python string primitives -/

lemma pyNorm_le (len : Nat) (i : Int) : pyNorm len i ≤ len := by
  simp only [pyNorm]
  split_ifs <;> omega

lemma pyNorm_le_self (len : Nat) (i : Int) (h : 0 ≤ i) : (pyNorm len i : Int) ≤ i := by
  simp only [pyNorm]
  split_ifs <;> omega

lemma pyNorm_le_add (len : Nat) (s : Int) (c : Nat) :
    (pyNorm len (s + (c : Int)) : Int) ≤ (pyNorm len s : Int) + (c : Int) := by
  simp only [pyNorm]
  split_ifs <;> omega

lemma pyNorm_mono_nonneg (len : Nat) (a b : Int) (h0 : 0 ≤ a) (hab : a ≤ b) :
    pyNorm len a ≤ pyNorm len b := by
  simp only [pyNorm]
  split_ifs <;> omega

lemma pyNorm_eq_of_nonneg_le (len : Nat) (e : Int) (h0 : 0 ≤ e) (h1 : e ≤ (len : Int)) :
    (pyNorm len e : Int) = e := by
  simp only [pyNorm]
  split_ifs <;> omega

lemma pySlice_length (l : List Char) (i j : Int) :
    (pySlice l i j).length = pyNorm l.length j - pyNorm l.length i := by
  have hj := pyNorm_le l.length j
  simp only [pySlice, List.length_drop, List.length_take]
  omega

lemma pyStrip_length_le (l : List Char) : (pyStrip l).length ≤ l.length := by
  have h1 : ∀ (x : List Char), (x.dropWhile isPySpace).length ≤ x.length := by
    intro x
    induction x with
    | nil => simp
    | cons c cs ih =>
      by_cases h : isPySpace c <;> simp [List.dropWhile_cons, h] <;> omega
  calc (pyStrip l).length
      = ((l.dropWhile isPySpace).reverse.dropWhile isPySpace).length := by
        simp [pyStrip]
    _ ≤ (l.dropWhile isPySpace).reverse.length := h1 _
    _ = (l.dropWhile isPySpace).length := by simp
    _ ≤ l.length := h1 l

lemma pyRfind_cases (l : List Char) (c : Char) (i j : Int) :
    pyRfind l c i j = -1 ∨
    (0 ≤ pyRfind l c i j ∧ (pyNorm l.length i : Int) ≤ pyRfind l c i j ∧
      pyRfind l c i j < (pyNorm l.length j : Int)) := by
  unfold pyRfind
  cases hlast : ((List.range (pyNorm l.length j)).filter
      (fun p => decide (pyNorm l.length i ≤ p) && decide (l.get? p = some c))).getLast? with
  | none => left; rfl
  | some p =>
    right
    have hmem : p ∈ (List.range (pyNorm l.length j)).filter
        (fun q => decide (pyNorm l.length i ≤ q) && decide (l.get? q = some c)) := by
      rcases List.mem_getLast?_eq_getLast (by rw [hlast]; rfl) with ⟨hne, rfl⟩
      exact List.getLast_mem hne
    rcases List.mem_filter.mp hmem with ⟨hrange, hpred⟩
    have hlt : p < pyNorm l.length j := List.mem_range.mp hrange
    have hge : pyNorm l.length i ≤ p := by
      rcases Bool.and_eq_true_iff.mp hpred with ⟨h₁, _⟩
      exact of_decide_eq_true h₁
    refine ⟨by positivity, ?_, ?_⟩ <;> simp <;> omega

/-! ## Helper lemmas about chunkEnd -/

lemma chunkEnd_cases (text : List Char) (cs : Nat) (s : Int) :
    chunkEnd text cs s = s + (cs : Int) ∨
    (∃ p : Int, 0 ≤ p ∧ (pyNorm text.length s : Int) ≤ p ∧
      p < (pyNorm text.length (s + (cs : Int)) : Int) ∧
      s + ((cs / 2 : Nat) : Int) < p ∧ chunkEnd text cs s = p + 1) ∨
    (chunkEnd text cs s = 0 ∧ s + ((cs / 2 : Nat) : Int) < -1) := by
  simp only [chunkEnd]
  split_ifs with h1 h2 h3
  · rcases pyRfind_cases text '\n' s (s + (cs : Int)) with hr | ⟨hr0, hri, hrj⟩
    · rw [hr] at h2 ⊢
      right; right
      exact ⟨rfl, h2⟩
    · right; left
      exact ⟨pyRfind text '\n' s (s + (cs : Int)), hr0, hri, hrj, h2, rfl⟩
  · rcases pyRfind_cases text ' ' s (s + (cs : Int)) with hr | ⟨hr0, hri, hrj⟩
    · rw [hr] at h3 ⊢
      right; right
      exact ⟨rfl, h3⟩
    · right; left
      exact ⟨pyRfind text ' ' s (s + (cs : Int)), hr0, hri, hrj, h3, rfl⟩
  · left; rfl
  · left; rfl

lemma chunk_piece_length (text : List Char) (cs : Nat) (s : Int) :
    (pySlice text s (chunkEnd text cs s)).length ≤ cs := by
  rcases chunkEnd_cases text cs s with h | ⟨p, hp0, hpi, hpj, _, h⟩ | ⟨h, _⟩
  · rw [h, pySlice_length]
    have := pyNorm_le_add text.length s cs
    omega
  · rw [h, pySlice_length]
    have hle := pyNorm_le_add text.length s cs
    have hjlen := pyNorm_le text.length (s + (cs : Int))
    have hnorm : (pyNorm text.length (p + 1) : Int) = p + 1 :=
      pyNorm_eq_of_nonneg_le text.length (p + 1) (by omega) (by omega)
    omega
  · rw [h, pySlice_length]
    have h0 : pyNorm text.length 0 = 0 := by
      simp only [pyNorm]
      split_ifs <;> omega
    omega

lemma chunkEnd_lower (text : List Char) (cs : Nat) (s : Int) (hcs : 1 ≤ cs) :
    s + ((cs / 2 : Nat) : Int) + 1 ≤ chunkEnd text cs s := by
  rcases chunkEnd_cases text cs s with h | ⟨p, _, _, _, hpm, h⟩ | ⟨h, hneg⟩ <;> omega

/-! ## Claim C4 -/

/-- Claim C4 (code bug).  The claim states that `chunk_text` terminates for
every input whenever `overlap < chunk_size`.  It does not: on `loopText`
with `chunk_size = 10` and `overlap = 9` (so `overlap < chunk_size`), the
loop guard `start < len(text)` still holds after every number of
iterations of the loop body — the `start` values cycle through
`0, -2, -1, 0, ...` forever, because the newline boundary-seek sets
`end = 7`, `start` becomes `7 - 9 = -2`, and Python's negative-index
semantics then make the subsequent windows empty.  So the `while` loop of
`chunk_text(loopText, 10, 9)` never exits. -/
theorem chunk_text_nonterminating :
    9 < 10 ∧ ∀ n : Nat, (chunkNext loopText 10 9)^[n] 0 < (loopText.length : Int) := by
  refine ⟨by norm_num, ?_⟩
  have key : ∀ n : Nat, (chunkNext loopText 10 9)^[n] 0 = 0 ∨
      (chunkNext loopText 10 9)^[n] 0 = -2 ∨ (chunkNext loopText 10 9)^[n] 0 = -1 := by
    intro n
    induction n with
    | zero => left; rfl
    | succ n ih =>
      rw [Function.iterate_succ_apply']
      rcases ih with h | h | h <;> rw [h]
      · right; left; decide
      · right; right; decide
      · left; decide
  intro n
  rcases key n with h | h | h <;> rw [h] <;> decide

/-! ## Claim C7 -/

/-- Claim C7 (counterexample).  The claim states that no produced chunk is
the empty string after trimming, for `overlap < chunk_size`.  On
`emptyChunkText` (five letters then twenty spaces) with `chunk_size = 10`
and `overlap = 0 < 10`, the second of the three produced chunks — not the
last one — is a whitespace-only window and strips to the empty string. -/
theorem chunk_empty_cex :
    chunk_text emptyChunkText 10 0 = ["aaaaa".toList, [], []] ∧
    (0 : Nat) < 10 ∧ 10 < emptyChunkText.length :=
  ⟨by decide, by decide, by decide⟩

/-- Claim C7 (amended).  Every chunk produced by `chunk_text` — the last
one included — has length at most `chunk_size` (the boundary search only
moves the cut backwards, so the slack is zero); chunks can however be
empty after trimming, as `chunk_empty_cex` shows. -/
theorem chunk_size_bound (text : List Char) (chunk_size overlap : Nat) :
    ∀ chunk ∈ chunk_text text chunk_size overlap, chunk.length ≤ chunk_size := by
  intro chunk hc
  unfold chunk_text at hc
  split_ifs at hc with h
  · rw [List.mem_singleton] at hc
    subst hc
    omega
  · suffices H : ∀ (fuel : Nat) (s : Int) (chunk : List Char),
        chunk ∈ chunkTextGo text chunk_size overlap fuel s → chunk.length ≤ chunk_size from
      H _ _ _ hc
    intro fuel
    induction fuel with
    | zero =>
      intro s chunk hc'
      simp [chunkTextGo] at hc'
    | succ n ih =>
      intro s chunk hc'
      rw [chunkTextGo] at hc'
      split_ifs at hc' with hs
      · rcases List.mem_cons.mp hc' with rfl | hmem
        · exact le_trans (pyStrip_length_le _) (chunk_piece_length text chunk_size s)
        · exact ih _ _ hmem
      · simp at hc'

/-- Witness for `chunk_size_bound` at a concrete input. -/
theorem chunk_size_bound_witness :
    ("a".toList ∈ chunk_text ("ab".toList) 1 0) ∧ ("a".toList).length ≤ 1 :=
  ⟨by decide, chunk_size_bound ("ab".toList) 1 0 ("a".toList) (by decide)⟩

/-! ## Claim C8 -/

lemma pySlice_append (l : List Char) (a b c : Int)
    (h0 : 0 ≤ a) (hab : a ≤ b) (hbc : b ≤ c) :
    pySlice l a c = pySlice l a b ++ pySlice l b c := by
  unfold pySlice
  have hna : pyNorm l.length a ≤ pyNorm l.length b := pyNorm_mono_nonneg l.length a b h0 hab
  have hnb : pyNorm l.length b ≤ pyNorm l.length c :=
    pyNorm_mono_nonneg l.length b c (le_trans h0 hab) hbc
  have hnbl : pyNorm l.length b ≤ l.length := pyNorm_le l.length b
  have hsplit : l.take (pyNorm l.length c) =
      l.take (pyNorm l.length b) ++ (l.take (pyNorm l.length c)).drop (pyNorm l.length b) := by
    conv_lhs => rw [← List.take_append_drop (pyNorm l.length b) (l.take (pyNorm l.length c))]
    rw [List.take_take, min_eq_left hnb]
  conv_lhs => rw [hsplit]
  rw [List.drop_append_of_le_length]
  rw [List.length_take]
  omega

lemma chunkTextGo_eq_map (text : List Char) (cs ov : Nat) :
    ∀ (fuel : Nat) (s : Int), chunkTextGo text cs ov fuel s =
      (chunkWindowsGo text cs ov fuel s).map (fun w => pyStrip (pySlice text w.1 w.2)) := by
  intro fuel
  induction fuel with
  | zero => intro s; rfl
  | succ n ih =>
    intro s
    rw [chunkTextGo, chunkWindowsGo]
    split_ifs with h
    · rw [List.map_cons, ih]
    · rfl

lemma chunkWindowsGo_shape (text : List Char) (cs ov : Nat) (fuel : Nat) (s : Int) :
    chunkWindowsGo text cs ov fuel s = [] ∨
    (∃ rest, chunkWindowsGo text cs ov fuel s = (s, chunkEnd text cs s) :: rest ∧
      s < (text.length : Int)) := by
  cases fuel with
  | zero => left; rfl
  | succ n =>
    rw [chunkWindowsGo]
    split_ifs with h
    · right; exact ⟨_, rfl, h⟩
    · left; rfl

lemma windows_chain (text : List Char) (cs ov : Nat) (hcs : 1 ≤ cs) (hov : ov ≤ cs / 2) :
    ∀ (fuel : Nat) (s : Int), 0 ≤ s →
      List.Chain' (adjacentOverlapRel text ov) (chunkWindowsGo text cs ov fuel s) := by
  intro fuel
  induction fuel with
  | zero =>
    intro s _
    simp [chunkWindowsGo]
  | succ n ih =>
    intro s hs
    rw [chunkWindowsGo]
    split_ifs with hguard
    · have hlow := chunkEnd_lower text cs s hcs
      have hnext : 0 ≤ chunkNext text cs ov s := by
        simp only [chunkNext]
        split_ifs <;> omega
      rw [List.chain'_cons']
      refine ⟨?_, ih (chunkNext text cs ov s) hnext⟩
      intro w₂ hw₂
      rcases chunkWindowsGo_shape text cs ov n (chunkNext text cs ov s) with hnil | ⟨rest, hcons, hlt⟩
      · rw [hnil] at hw₂
        simp at hw₂
      · rw [hcons] at hw₂
        simp only [List.head?_cons, Option.mem_def, Option.some.injEq] at hw₂
        subst hw₂
        have helt : chunkEnd text cs s < (text.length : Int) := by
          by_contra hge
          have : chunkNext text cs ov s = chunkEnd text cs s := by
            simp only [chunkNext]
            rw [if_neg hge]
          rw [this] at hlt
          omega
        have hs' : chunkNext text cs ov s = chunkEnd text cs s - (ov : Int) := by
          simp only [chunkNext]
          rw [if_pos helt]
        rw [hs']
        have hlow' := chunkEnd_lower text cs (chunkEnd text cs s - (ov : Int)) hcs
        refine ⟨rfl, helt, ?_, ?_⟩
        · have h1 : pySlice text s (chunkEnd text cs s) =
              pySlice text s (chunkEnd text cs s - (ov : Int)) ++
                pySlice text (chunkEnd text cs s - (ov : Int)) (chunkEnd text cs s) :=
            pySlice_append text s (chunkEnd text cs s - (ov : Int)) (chunkEnd text cs s)
              hs (by omega) (by omega)
          exact ⟨_, h1.symm⟩
        · have h2 : pySlice text (chunkEnd text cs s - (ov : Int))
              (chunkEnd text cs (chunkEnd text cs s - (ov : Int))) =
              pySlice text (chunkEnd text cs s - (ov : Int)) (chunkEnd text cs s) ++
                pySlice text (chunkEnd text cs s)
                  (chunkEnd text cs (chunkEnd text cs s - (ov : Int))) :=
            pySlice_append text (chunkEnd text cs s - (ov : Int)) (chunkEnd text cs s)
              (chunkEnd text cs (chunkEnd text cs s - (ov : Int))) (by omega) (by omega) (by omega)
          exact ⟨_, h2.symm⟩
    · simp

/-- Claim C8 (counterexample).  The claim states that for `overlap > 0` and
`len(text) > chunk_size` the tail of chunk `i` and the head of chunk `i+1`
share at least `overlap - slack` characters.  On `overlapText` with
`chunk_size = 10` and `overlap = 4`, the entire shared window region is
whitespace and is removed by `.strip()`: the first two produced chunks
share zero characters, so the claim fails for every slack smaller than the
whole overlap. -/
theorem chunk_overlap_cex :
    chunk_text overlapText 10 4 =
      ["aaaaaa".toList, "bbbbbb".toList, "bbbbbbbb".toList] ∧
    sharedOverlap ("aaaaaa".toList) ("bbbbbb".toList) = 0 ∧
    (0 : Nat) < 4 ∧ 4 < 10 ∧ 10 < overlapText.length :=
  ⟨by decide, by decide, by decide, by decide, by decide⟩

/-- Claim C8 (amended).  Overlap preservation holds for the raw windows,
not for the stripped chunks: for `overlap ≤ chunk_size / 2`, each window
of the `chunk_text` loop starts exactly `overlap` characters before the
previous window's cut, and the raw text of that shared region is a suffix
of the previous window's raw slice and a prefix of the next window's raw
slice.  The produced chunks are these slices after `.strip()`, which may
remove any whitespace of the shared region (down to sharing nothing, as
`chunk_overlap_cex` shows). -/
theorem chunk_overlap_amended (text : List Char) (chunk_size overlap : Nat)
    (hcs : 1 ≤ chunk_size) (hov : overlap ≤ chunk_size / 2) :
    List.Chain' (adjacentOverlapRel text overlap) (chunkWindows text chunk_size overlap) ∧
    (chunk_size < text.length →
      chunk_text text chunk_size overlap =
        (chunkWindows text chunk_size overlap).map
          (fun w => pyStrip (pySlice text w.1 w.2))) := by
  constructor
  · exact windows_chain text chunk_size overlap hcs hov (text.length + 1) 0 le_rfl
  · intro h
    unfold chunk_text chunkWindows
    rw [if_neg (by omega)]
    exact chunkTextGo_eq_map text chunk_size overlap (text.length + 1) 0

/-- Witness for `chunk_overlap_amended` at a concrete input. -/
theorem chunk_overlap_amended_witness :
    List.Chain' (adjacentOverlapRel overlapText 4) (chunkWindows overlapText 10 4) ∧
    (10 < overlapText.length →
      chunk_text overlapText 10 4 =
        (chunkWindows overlapText 10 4).map (fun w => pyStrip (pySlice overlapText w.1 w.2))) :=
  chunk_overlap_amended overlapText 10 4 (by norm_num) (by norm_num)

/-! ## Claim C6 -/

/-- Claim C6 (confirmed).  `retrieve_context` returns the no-results
sentinel exactly when the query yields no results, and the distinct
excluded-by-size sentinel when results exist but the first (top-ranked)
one is already larger than the budget — the loop then breaks before
including any block, which is the only way for results to exist with all
of them excluded. -/
theorem retrieve_sentinels (doc : String) (m : ChunkMeta)
    (rest : List (String × ChunkMeta)) (N : Nat) (h : N < doc.length) :
    retrieve_context ((doc, m) :: rest) N = sizeLimitSentinel ∧
    retrieve_context [] N = noResultsSentinel ∧
    noResultsSentinel ≠ sizeLimitSentinel := by
  refine ⟨?_, rfl, by decide⟩
  have hparts : assembleGo N ((doc, m) :: rest) 0 = [] := by
    rw [assembleGo, if_pos]
    omega
  simp [retrieve_context, hparts]

/-- Witness for `retrieve_sentinels` at a concrete input. -/
theorem retrieve_sentinels_witness :
    retrieve_context [("abcd", ChunkMeta.other "x")] 3 = sizeLimitSentinel ∧
    retrieve_context [] 3 = noResultsSentinel ∧
    noResultsSentinel ≠ sizeLimitSentinel :=
  retrieve_sentinels "abcd" (ChunkMeta.other "x") [] 3 (by decide)

/-! ## Claim C5 -/

/-- Claim C5 (counterexample).  The claim bounds the returned string by
`N` plus the overhead of one header and one delimiter.  The budget check
`total_chars + len(doc) > max_context_chars` never counts the join
delimiter `"\n---\n\n"`, so with seventeen one-character documents and
`N = 100` the assembled string has 198 characters, exceeding
`N + header + 2 + delimiter = 111`. -/
theorem context_budget_cex :
    (retrieve_context budgetResults 100).length = 198 ∧
    100 + (headerFor (ChunkMeta.other "x")).length + 2 + ("\n---\n\n" : String).length < 198 :=
  ⟨by decide, by decide⟩

lemma assembleGo_total_le (N H : Nat) :
    ∀ (results : List (String × ChunkMeta)) (total : Nat),
      (∀ r ∈ results, (headerFor r.2).length ≤ H) →
      assembleGo N results total ≠ [] →
      total + ((assembleGo N results total).map String.length).sum ≤ N + H + 2 := by
  intro results
  induction results with
  | nil =>
    intro total _ hne
    exact absurd rfl hne
  | cons r rest ih =>
    intro total hH hne
    obtain ⟨doc, m⟩ := r
    rw [assembleGo] at hne ⊢
    split_ifs at hne ⊢ with hbreak
    · exact absurd rfl hne
    · push_neg at hbreak
      have hH' : (headerFor m).length ≤ H := hH (doc, m) (List.mem_cons_self _ _)
      have hnl : ("\n" : String).length = 1 := rfl
      have hlen : (headerFor m ++ "\n" ++ doc ++ "\n").length =
          (headerFor m).length + doc.length + 2 := by
        simp only [String.length_append, hnl]
        omega
      by_cases hrest : assembleGo N rest (total + doc.length + (headerFor m).length + 2) = []
      · rw [hrest]
        simp only [List.map_cons, List.map_nil, List.sum_cons, List.sum_nil, hlen]
        omega
      · have hih := ih (total + doc.length + (headerFor m).length + 2)
          (fun q hq => hH q (List.mem_cons_of_mem _ hq)) hrest
        simp only [List.map_cons, List.sum_cons, hlen]
        omega

lemma pyJoin_length (sep : String) :
    ∀ parts : List String, parts ≠ [] →
      (pyJoin sep parts).length =
        (parts.map String.length).sum + sep.length * (parts.length - 1) := by
  intro parts
  induction parts with
  | nil => intro h; exact absurd rfl h
  | cons p rest ih =>
    intro _
    cases rest with
    | nil => simp [pyJoin]
    | cons q rrest =>
      have hr := ih (by simp)
      show (p ++ sep ++ pyJoin sep (q :: rrest)).length = _
      simp only [String.length_append, hr, List.map_cons, List.sum_cons, List.length_cons]
      simp only [Nat.add_sub_cancel, Nat.mul_succ]
      omega

/-- Claim C5 (amended).  The budget check only counts documents and the
headers of previously included blocks, never the join delimiters, so the
correct bound has a per-block term: when at least one block is included,
for any bound `H` on the header lengths of the results, the returned
string has length at most `N + H + 2` plus 6 (the delimiter length) per
block boundary.  The claimed fixed one-header-one-delimiter overhead is
exceeded as soon as three or more blocks are included
(`context_budget_cex`). -/
theorem context_budget_amended (results : List (String × ChunkMeta)) (N H : Nat)
    (hH : ∀ r ∈ results, (headerFor r.2).length ≤ H)
    (hne : assembleGo N results 0 ≠ []) :
    (retrieve_context results N).length ≤
      N + H + 2 + 6 * ((assembleGo N results 0).length - 1) := by
  have hres : results ≠ [] := by
    intro h
    subst h
    exact hne rfl
  have hsum := assembleGo_total_le N H results 0 hH hne
  have hjoin := pyJoin_length "\n---\n\n" (assembleGo N results 0) hne
  have hsep : ("\n---\n\n" : String).length = 6 := rfl
  simp only [retrieve_context]
  rw [if_neg hres, if_neg hne, hjoin, hsep]
  omega

/-- Witness for `context_budget_amended` at a concrete input. -/
theorem context_budget_amended_witness :
    (retrieve_context [("ab", ChunkMeta.other "t")] 10).length ≤
      10 + 3 + 2 + 6 * ((assembleGo 10 [("ab", ChunkMeta.other "t")] 0).length - 1) :=
  context_budget_amended [("ab", ChunkMeta.other "t")] 10 3
    (by
      intro r hr
      rw [List.mem_singleton] at hr
      subst hr
      decide)
    (by decide)

/-! ## Claim C1 -/

lemma find?_replace (state : CacheState) (key : String) (entry : CacheEntry)
    (hany : state.any (fun p => p.1 = key) = true) :
    List.find? (fun p => p.1 = key)
        (state.map (fun p => if p.1 = key then (key, entry) else p)) = some (key, entry) := by
  induction state with
  | nil => simp at hany
  | cons x xs ih =>
    by_cases hx : x.1 = key
    · rw [List.map_cons, if_pos hx]
      exact List.find?_cons_of_pos _ (by simp)
    · rw [List.map_cons, if_neg hx, List.find?_cons_of_neg _ (by simp [hx])]
      rw [List.any_cons] at hany
      simp only [hx, decide_False, Bool.false_or] at hany
      exact ih hany

lemma find?_append_missing (state : CacheState) (key : String) (entry : CacheEntry)
    (hnone : state.any (fun p => p.1 = key) = false) :
    List.find? (fun p => p.1 = key) (state ++ [(key, entry)]) = some (key, entry) := by
  induction state with
  | nil =>
    rw [List.nil_append]
    exact List.find?_cons_of_pos _ (by simp)
  | cons x xs ih =>
    rw [List.any_cons] at hnone
    have hx : (x.1 = key) = False := by
      by_cases h : x.1 = key
      · rw [h] at hnone
        simp at hnone
      · simp [h]
    rw [List.cons_append, List.find?_cons_of_neg _ (by simp [hx])]
    apply ih
    rcases Bool.or_eq_false_iff.mp hnone with ⟨_, h₂⟩
    exact h₂

lemma lookupEntry_cache_put (pd ts ta : String) (md : List (String × Json))
    (now ttl : Nat) (state : CacheState) :
    lookupEntry (cache_market_analysis pd ts ta md now ttl state) (get_cache_key pd ts ta) =
      some (cacheEntryFor pd ts ta md now ttl) := by
  simp only [cache_market_analysis, lookupEntry]
  by_cases hany : state.any (fun p => p.1 = get_cache_key pd ts ta)
  · rw [if_pos hany, find?_replace state _ _ hany]
    rfl
  · rw [if_neg hany, find?_append_missing state _ _ (Bool.eq_false_iff.mpr hany)]
    rfl

/-- Claim C1 (counterexample).  The claim states that a `put` immediately
followed by a `get` under the same parameters returns the payload equal to
what was stored.  It does not: `get_cached_market_analysis` adds a
`_cache_info` key to the parsed payload before returning it, so storing
the empty dict returns a non-empty dict. -/
theorem cache_roundtrip_cex :
    (get_cached_market_analysis "p" "t" "a" 0
        (cache_market_analysis "p" "t" "a" [] 0 7 [])).1 ≠ some [] := by
  have heval : (get_cached_market_analysis "p" "t" "a" 0
      (cache_market_analysis "p" "t" "a" [] 0 7 [])).1 =
      some [("_cache_info", cacheInfoJson 0 604800)] := rfl
  rw [heval]
  intro h
  injection h with h'
  exact List.noConfusion h'

/-- Claim C1 (amended).  A `put` under `(pd, ts, ta)` immediately followed
by a `get` under the same parameters is a hit, and returns the stored
payload with exactly one addition: the `_cache_info` key appended at the
end (with the entry's `cached_at` and `expires_at` and `from_cache =
true`), provided the payload did not itself contain a `_cache_info` key.
Every stored key/value pair is returned unchanged. -/
theorem cache_roundtrip_amended (pd ts ta : String) (payload : List (String × Json))
    (now ttl_days : Nat) (state : CacheState)
    (h : ∀ q ∈ payload, q.1 ≠ "_cache_info") :
    (get_cached_market_analysis pd ts ta now
        (cache_market_analysis pd ts ta payload now ttl_days state)).1 =
      some (payload ++ [("_cache_info", cacheInfoJson now (now + ttl_days * 86400))]) := by
  simp only [get_cached_market_analysis, lookupEntry_cache_put]
  rw [if_neg (by simp [cacheEntryFor])]
  have hset : dictSet payload "_cache_info" (cacheInfoJson now (now + ttl_days * 86400)) =
      payload ++ [("_cache_info", cacheInfoJson now (now + ttl_days * 86400))] := by
    rw [dictSet, if_neg]
    simp only [List.any_eq_true, not_exists, not_and]
    intro q hq
    simpa using h q hq
  simp [cacheEntryFor, hset]

/-- Witness for `cache_roundtrip_amended` at a concrete input. -/
theorem cache_roundtrip_amended_witness :
    (get_cached_market_analysis "p" "t" "a" 3
        (cache_market_analysis "p" "t" "a" [("k", Json.str "v")] 3 7 [])).1 =
      some ([("k", Json.str "v")] ++ [("_cache_info", cacheInfoJson 3 (3 + 7 * 86400))]) :=
  cache_roundtrip_amended "p" "t" "a" [("k", Json.str "v")] 3 7 []
    (by
      intro q hq
      rw [List.mem_singleton] at hq
      subst hq
      decide)

/-! ## Claim C2 -/

/-- Claim C2 (counterexample).  The claim states that any two distinct
parameter tuples produce different cache keys.  The digest input joins the
three parameters with `|`, so the distinct tuples `("a|b", "c", "d")` and
`("a", "b|c", "d")` produce the same digest input — hence the same MD5
key — and a `put` under the first tuple followed by a `get` under the
second is a HIT, not a MISS. -/
theorem cache_key_cex :
    get_cache_key "a|b" "c" "d" = get_cache_key "a" "b|c" "d" ∧
    ("a|b", "c", "d") ≠ (("a", "b|c", "d") : String × String × String) ∧
    (get_cached_market_analysis "a" "b|c" "d" 0
        (cache_market_analysis "a|b" "c" "d" [] 0 7 [])).1 ≠ none := by
  refine ⟨by decide, by decide, ?_⟩
  have heval : (get_cached_market_analysis "a" "b|c" "d" 0
      (cache_market_analysis "a|b" "c" "d" [] 0 7 [])).1 =
      some [("_cache_info", cacheInfoJson 0 604800)] := rfl
  rw [heval]
  exact Option.some_ne_none _

lemma append_pipe_inj : ∀ (a a' r r' : List Char), '|' ∉ a → '|' ∉ a' →
    a ++ '|' :: r = a' ++ '|' :: r' → a = a' ∧ r = r' := by
  intro a
  induction a with
  | nil =>
    intro a' r r' _ ha' h
    cases a' with
    | nil =>
      rw [List.nil_append, List.nil_append] at h
      exact ⟨rfl, (List.cons.injEq _ _ _ _ ▸ h).2⟩
    | cons y ys =>
      rw [List.nil_append, List.cons_append] at h
      have hy : y = '|' := ((List.cons.injEq _ _ _ _ ▸ h).1).symm
      exact absurd (hy ▸ List.mem_cons_self y ys) ha'
  | cons x xs ih =>
    intro a' r r' ha ha' h
    cases a' with
    | nil =>
      rw [List.nil_append, List.cons_append] at h
      have hx : x = '|' := (List.cons.injEq _ _ _ _ ▸ h).1
      exact absurd (hx ▸ List.mem_cons_self x xs) ha
    | cons y ys =>
      rw [List.cons_append, List.cons_append] at h
      have hxy := List.cons.injEq _ _ _ _ ▸ h
      have htail := ih ys r r' (fun hm => ha (List.mem_cons_of_mem _ hm))
        (fun hm => ha' (List.mem_cons_of_mem _ hm)) hxy.2
      exact ⟨by rw [hxy.1, htail.1], htail.2⟩

/-- Claim C2 (amended).  The cache key is the MD5 hexdigest of the
pipe-joined tuple, so distinctness of keys can fail when a component
contains the separator `|` (see `cache_key_cex`).  For tuples whose
components are pipe-free, distinct tuples always produce distinct digest
inputs — hence distinct MD5 inputs, and distinct keys up to MD5
collisions: if the digest inputs coincide, the tuples were equal. -/
theorem cache_key_amended (pd ts ta pd' ts' ta' : String)
    (h₁ : '|' ∉ pd.data) (h₂ : '|' ∉ ts.data) (h₃ : '|' ∉ ta.data)
    (h₁' : '|' ∉ pd'.data) (h₂' : '|' ∉ ts'.data) (h₃' : '|' ∉ ta'.data)
    (h : get_cache_key pd ts ta = get_cache_key pd' ts' ta') :
    pd = pd' ∧ ts = ts' ∧ ta = ta' := by
  have hdata := congrArg String.data h
  simp only [get_cache_key, String.data_append] at hdata
  simp only [List.append_assoc, List.singleton_append] at hdata
  have step1 := append_pipe_inj pd.data pd'.data _ _ h₁ h₁' hdata
  have step2 := append_pipe_inj ts.data ts'.data _ _ h₂ h₂' step1.2
  exact ⟨String.ext step1.1, String.ext step2.1, String.ext step2.2⟩

/-- Witness for `cache_key_amended` at a concrete input. -/
theorem cache_key_amended_witness :
    ("a" : String) = "a" ∧ ("b" : String) = "b" ∧ ("c" : String) = "c" :=
  cache_key_amended "a" "b" "c" "a" "b" "c" (by decide) (by decide) (by decide)
    (by decide) (by decide) (by decide) (by decide)

/-! ## Claim C9 -/

/-- Claim C9 (confirmed).  An entry whose `expires_at` lies in the past is
a MISS for `get_cached_market_analysis`, which also deletes it (lazy
expiry); `clear_expired_cache` returns exactly the number of entries whose
`expires_at` had passed at call time, and every such entry is absent from
the collection afterwards. -/
theorem cache_expiry_ok (state : CacheState) (pd ts ta : String) (now : Nat)
    (e : CacheEntry) (h₁ : lookupEntry state (get_cache_key pd ts ta) = some e)
    (h₂ : e.expires_at < now) :
    (get_cached_market_analysis pd ts ta now state).1 = none ∧
    lookupEntry (get_cached_market_analysis pd ts ta now state).2
      (get_cache_key pd ts ta) = none ∧
    (clear_expired_cache now state).1 =
      state.countP (fun p => decide (p.2.expires_at < now)) ∧
    (∀ p ∈ state, p.2.expires_at < now →
      lookupEntry (clear_expired_cache now state).2 p.1 = none) := by
  simp only [get_cached_market_analysis, h₁, if_pos h₂]
  refine ⟨trivial, ?_, ?_, ?_⟩
  · simp only [lookupEntry]
    rw [List.find?_eq_none.mpr]
    · rfl
    · intro x hx
      have := (List.mem_filter.mp hx).2
      simp only [decide_not, Bool.not_eq_true', decide_eq_false_iff_not] at this
      simpa using this
  · simp only [clear_expired_cache, List.length_map]
    rw [List.countP_eq_length_filter]
  · intro p hp hexp
    have hid : p.1 ∈ (state.filter (fun q => q.2.expires_at < now)).map Prod.fst :=
      List.mem_map.mpr ⟨p, List.mem_filter.mpr ⟨hp, by simpa using hexp⟩, rfl⟩
    simp only [clear_expired_cache, lookupEntry]
    rw [List.find?_eq_none.mpr]
    · rfl
    · intro x hx
      have hxnot := (List.mem_filter.mp hx).2
      simp only [decide_not, Bool.not_eq_true', decide_eq_false_iff_not] at hxnot
      intro hcontra
      have : x.1 = p.1 := by simpa using hcontra
      exact hxnot (this ▸ hid)

/-- Witness for `cache_expiry_ok` at a concrete input. -/
theorem cache_expiry_ok_witness :
    (get_cached_market_analysis "p" "t" "a" 5 cacheStateEx).1 = none ∧
    (clear_expired_cache 5 cacheStateEx).1 = 1 := by
  refine ⟨(cache_expiry_ok cacheStateEx "p" "t" "a" 5 cacheEntryEx rfl (by decide)).1, ?_⟩
  exact ((cache_expiry_ok cacheStateEx "p" "t" "a" 5 cacheEntryEx rfl (by decide)).2.2.1).trans rfl

/-! ## Claim C3 -/

lemma upsertAll_apply_not_mem (s : Store) (l : List ChunkRec) (k : String)
    (h : ∀ c ∈ l, c.id ≠ k) : upsertAll s l k = s k := by
  induction l generalizing s with
  | nil => rfl
  | cons c t ih =>
    have step : upsertAll s (c :: t) = upsertAll (upsertChunk s c) t := rfl
    rw [step, ih (upsertChunk s c) (fun c' hc' => h c' (List.mem_cons_of_mem _ hc'))]
    simp only [upsertChunk]
    rw [if_neg]
    intro hk
    exact h c (List.mem_cons_self _ _) hk.symm

lemma upsertAll_apply_congr (l : List ChunkRec) (k : String)
    (h : ∃ c ∈ l, c.id = k) :
    ∀ s₁ s₂ : Store, upsertAll s₁ l k = upsertAll s₂ l k := by
  induction l with
  | nil =>
    rcases h with ⟨c, hc, _⟩
    exact absurd hc (List.not_mem_nil c)
  | cons c t ih =>
    intro s₁ s₂
    by_cases ht : ∃ c' ∈ t, c'.id = k
    · exact ih ht _ _
    · have hmiss : ∀ c' ∈ t, c'.id ≠ k := by
        intro c' hc' heq
        exact ht ⟨c', hc', heq⟩
      have step₁ : upsertAll s₁ (c :: t) = upsertAll (upsertChunk s₁ c) t := rfl
      have step₂ : upsertAll s₂ (c :: t) = upsertAll (upsertChunk s₂ c) t := rfl
      rw [step₁, step₂, upsertAll_apply_not_mem _ _ _ hmiss, upsertAll_apply_not_mem _ _ _ hmiss]
      have hck : c.id = k := by
        rcases h with ⟨c', hc', heq⟩
        rcases List.mem_cons.mp hc' with rfl | hmem
        · exact heq
        · exact absurd heq (hmiss _ hmem)
      simp only [upsertChunk]
      rw [if_pos hck.symm, if_pos hck.symm]

/-- Claim C3 (confirmed).  The chunk ids are a deterministic function of
the repository snapshot (`doc:<path>:<idx>`, `commit:<sha>:<idx>`), so
indexing the same snapshot twice into the same collection writes bindings
for exactly the same ids with exactly the same values, and under the
spec's idempotent-upsert-by-id contract for the collection the state after
the second `index_repo` run equals the state after the first: no
duplication, identical set of entries. -/
theorem index_repo_idempotent (store : Store) (repo_data : RepoData) :
    index_repo (index_repo store repo_data) repo_data = index_repo store repo_data := by
  simp only [index_repo]
  by_cases hE : (chunk_documentation repo_data.documentation 5 ++
      chunk_commits repo_data.commits 5 1000).isEmpty
  · simp [hE]
  · simp only [hE, Bool.false_eq_true, if_false]
    funext k
    by_cases h : ∃ c ∈ chunk_documentation repo_data.documentation 5 ++
        chunk_commits repo_data.commits 5 1000, c.id = k
    · exact upsertAll_apply_congr _ k h _ _
    · have hmiss : ∀ c ∈ chunk_documentation repo_data.documentation 5 ++
          chunk_commits repo_data.commits 5 1000, c.id ≠ k := by
        intro c hc heq
        exact h ⟨c, hc, heq⟩
      rw [upsertAll_apply_not_mem _ _ _ hmiss]

/-! ## Claim C10 -/

/-- Claim C10 (confirmed).  A commit whose file list is empty (or absent:
`.get("files", [])`) and whose diff is empty (or absent) contributes no
chunk at all to `chunk_commits` — the single-chunk branch requires a
non-empty diff and the per-file loop runs over an empty list — so such a
commit is silently omitted from indexing even when its message is
non-empty. -/
theorem chunk_commits_empty_commit (c : Commit) (commits₁ commits₂ : List Commit)
    (max_files_per_commit max_diff_chars : Nat)
    (hf : c.files = []) (hd : c.diff = "") :
    chunk_commits (commits₁ ++ c :: commits₂) max_files_per_commit max_diff_chars =
      chunk_commits (commits₁ ++ commits₂) max_files_per_commit max_diff_chars := by
  simp only [chunk_commits, List.flatMap_append, List.flatMap_cons]
  simp [hf, hd]

/-- Witness for `chunk_commits_empty_commit` at a concrete input: a commit
with a non-empty message, no files and an empty diff yields no chunks. -/
theorem chunk_commits_empty_commit_witness :
    chunk_commits [⟨"abc123", "add feature", "alice", "2024-01-01", [], ""⟩] 5 1000 = [] :=
  (chunk_commits_empty_commit ⟨"abc123", "add feature", "alice", "2024-01-01", [], ""⟩
    [] [] 5 1000 rfl rfl).trans rfl

end MarkAI
